import Mathlib

/-!
Verification of `src/photo_organizer/main.py` (simple-file-org).

The program organizes files into date-based directory hierarchies:
a Skeleton Builder (the `while` loops of the `all` / `year` / `month`
commands) creates one directory per calendar day, the File Relocator
(`move_files`) moves each file into the bucket computed from its
modification time, and the Empty Directory Pruner (`clean_folders`)
removes empty directories.

The embedding below models the filesystem as a list of directory paths
plus a list of file entries (a path is its list of components).  Calendar
arithmetic (`datetime + timedelta(days=1)`) is modelled on a proleptic
Gregorian calendar, matching Python's `datetime`.  Timestamps appear as
the calendar date obtained after the source's fixed conversion of
`st_mtime` / `st_ctime` to the hardcoded `America/Los_Angeles` zone;
the conversion itself (pytz) is an external collaborator and is not
re-modelled, only the date it yields is.
-/

/-- Gregorian leap-year rule, as implemented by Python's `datetime`. -/
def isLeap (y : Nat) : Bool :=
  (y % 4 == 0 && y % 100 != 0) || y % 400 == 0

/-- Number of days of month `m` (1..12) of year `y`. -/
def daysInMonth (y m : Nat) : Nat :=
  if m = 2 then (if isLeap y then 29 else 28)
  else if m = 4 ∨ m = 6 ∨ m = 9 ∨ m = 11 then 30
  else 31

/-- A calendar date, the `(year, month, day)` triple of a Python
`datetime` whose time-of-day components have been zeroed. -/
structure Date where
  year : Nat
  month : Nat
  day : Nat
  deriving DecidableEq, Repr

/-- `d + timedelta(days=1)` at day granularity: roll over month end and
year end by the Gregorian calendar. -/
def Date.next (d : Date) : Date :=
  if d.day < daysInMonth d.year d.month then ⟨d.year, d.month, d.day + 1⟩
  else if d.month < 12 then ⟨d.year, d.month + 1, 1⟩
  else ⟨d.year + 1, 1, 1⟩

/-- `datetime` comparison `a <= b` restricted to the date triple
(the commands zero the time-of-day fields first). -/
def dateLE (a b : Date) : Bool :=
  decide (a.year < b.year ∨ (a.year = b.year ∧
    (a.month < b.month ∨ (a.month = b.month ∧ a.day ≤ b.day))))

/-- Full English month name, the value of `strftime("%B")` under the C
locale used by the program. -/
def monthName : Nat → String
  | 1 => "January" | 2 => "February" | 3 => "March" | 4 => "April"
  | 5 => "May" | 6 => "June" | 7 => "July" | 8 => "August"
  | 9 => "September" | 10 => "October" | 11 => "November" | 12 => "December"
  | _ => ""

/-- `strftime("%B")[0:3]`: the three-letter month abbreviation. -/
def monthAbbrev (m : Nat) : String :=
  (monthName m).take 3

/-- The `f"{month}-{day}"` path component. -/
def dayComponent (d : Date) : String :=
  toString d.month ++ "-" ++ toString d.day

/-- A filesystem path, as its list of components. -/
abbrev FPath := List String

/-- A regular file of the scanned tree.  `ino` is the file's identity
(its inode), preserved by renames; `dir`/`name` are its current
location; `mtime` (resp. `ctime`) is the calendar date obtained from
`st_mtime` (resp. `st_ctime`) after the source's fixed conversion to
the hardcoded `America/Los_Angeles` timezone.  A rename changes only
`dir`; `st_mtime` is untouched by `Path.rename`. -/
structure FileEnt where
  ino : Nat
  dir : FPath
  name : String
  mtime : Date
  ctime : Date
  deriving DecidableEq, Repr

/-- Line 57 of `main.py`:
`Path(folder, modified_time.strftime("%B")[0:3], f"{month}-{day}")`.
The relocator's target bucket: note that it is NOT year-qualified,
whatever command invoked `move_files`. -/
def targetDirectory (folder : FPath) (f : FileEnt) : FPath :=
  folder ++ [monthAbbrev f.mtime.month, dayComponent f.mtime]

/-- `destination_path.exists()` (line 61): a file or a directory sits at
`tdir/<n>` in the current tree. -/
def destExists (dirs : List FPath) (files : List FileEnt) (tdir : FPath) (n : String) : Bool :=
  files.any (fun g => g.dir == tdir && g.name == n) || dirs.contains (tdir ++ [n])

/-- The effect of a successful `file_path.rename(destination_path)` on
the file list: the entry with the moved file's inode now lives in
`tdir`; nothing else changes. -/
def relocate (cur : List FileEnt) (f : FileEnt) (tdir : FPath) : List FileEnt :=
  cur.map (fun g => if g.ino == f.ino then { g with dir := tdir } else g)

/-- `file_path.rename(destination_path)` (line 64), as the OS performs
it: it fails when the destination's parent directory does not exist
(`move_files` never creates directories), and may also fail for an
environmental reason (cross-device link, permission, disappeared
source), modelled by the oracle `env` on the file's inode. -/
def renameFile (dirs : List FPath) (env : Nat → Bool) (cur : List FileEnt) (f : FileEnt)
    (tdir : FPath) : Except String (List FileEnt) :=
  if !(dirs.contains tdir) then Except.error "No such file or directory"
  else if !(env f.ino) then Except.error "OS error"
  else Except.ok (relocate cur f tdir)

/-- What happened to one processed file (the log line it produced). -/
inductive Outcome where
  | conflict
  | renamed
  | failed
  deriving DecidableEq, Repr

/-- Lines 57-66 of `main.py`, the body of the `move_files` loop for one
file `f`, over the current tree `cur`: skip when the destination
already exists, otherwise attempt the rename; the `try/except` catches
a rename failure (it is logged and the loop continues). -/
def moveStep (folder : FPath) (dirs : List FPath) (env : Nat → Bool) (cur : List FileEnt)
    (f : FileEnt) : List FileEnt × Outcome :=
  let tdir := targetDirectory folder f
  if destExists dirs cur tdir f.name then (cur, Outcome.conflict)
  else
    match renameFile dirs env cur f tdir with
    | Except.ok cur2 => (cur2, Outcome.renamed)
    | Except.error _ => (cur, Outcome.failed)

/-- The `move_files` loop over the scanned snapshot `pending` (the
regular files found by `read_target.rglob('*')`), threading the tree
`cur`; returns the final file list and the per-file log
`(inode, outcome)` in processing order.  (pathlib's lazy `rglob` can
additionally re-encounter a file after its move; such a re-encounter
finds the file at its own computed destination and skips it, so the
snapshot pass produces the same final tree.) -/
def move_files_go (folder : FPath) (dirs : List FPath) (env : Nat → Bool) :
    List FileEnt → List FileEnt → List FileEnt × List (Nat × Outcome)
  | [], cur => (cur, [])
  | f :: rest, cur =>
    let s := moveStep folder dirs env cur f
    let r := move_files_go folder dirs env rest s.1
    (r.1, (f.ino, s.2) :: r.2)

/-- `move_files(folder)` (lines 33-66): scan the tree and process every
file.  `files` is both the scan snapshot and the current tree.
`move_files` never touches `dirs`: it creates no directory. -/
def move_files (folder : FPath) (dirs : List FPath) (env : Nat → Bool)
    (files : List FileEnt) : List FileEnt × List (Nat × Outcome) :=
  move_files_go folder dirs env files files

/-- The year-qualified skeleton bucket of the `all` and `year` commands
(lines 97 and 137):
`Path(folder, str(start.year), start.strftime("%B")[0:3], f"{month}-{day}")`. -/
def skeletonBucket (folder : FPath) (d : Date) : FPath :=
  folder ++ [toString d.year, monthAbbrev d.month, dayComponent d]

/-- The year-less skeleton bucket of the `month` command (line 179):
`Path(folder, start.strftime("%B")[0:3], f"{month}-{day}")`. -/
def monthBucket (folder : FPath) (d : Date) : FPath :=
  folder ++ [monthAbbrev d.month, dayComponent d]

/-- All nonempty ancestor paths of `p`, `p` included. -/
def pathInits (p : FPath) : List FPath :=
  (List.range p.length).map (fun k => p.take (k + 1))

/-- `target_directory.mkdir(parents=True, exist_ok=True)`: add every
missing ancestor of `p` (and `p` itself) to the directory set. -/
def mkdirParents (dirs : List FPath) (p : FPath) : List FPath :=
  dirs ++ (pathInits p).filter (fun q => !dirs.contains q)

/-- One iteration of a skeleton loop body for bucket path `p`
(lines 98-102): if the directory exists it is left alone (and the skip
is logged), otherwise it is created with its parents.  The returned
Bool records whether a "Creating directory" line was logged. -/
def mkdirStep (dirs : List FPath) (p : FPath) : List FPath × Bool :=
  if dirs.contains p then (dirs, false) else (mkdirParents dirs p, true)

/-- The skeleton-building loop, folded over the list of visited dates
(the loops of `all` / `year` visit `start`, `start + 1 day`, ... up to
their mode's boundary; `bucket` is the mode's bucket rule).  Returns
the final directory set together with the list of bucket directories
whose creation was logged. -/
def buildSkeleton (bucket : Date → FPath) : List Date → List FPath → List FPath × List FPath
  | [], dirs => (dirs, [])
  | D :: rest, dirs =>
    let s := mkdirStep dirs (bucket D)
    let r := buildSkeleton bucket rest s.1
    (r.1, if s.2 then bucket D :: r.2 else r.2)

/-- The `all` command's skeleton loop (lines 96-103):
`while start <= today: mkdir(<folder>/<year>/<Mon>/<m>-<d>); start += 1 day`,
with explicit fuel; `none` means the fuel ran out before the guard
became false. -/
def allSkeletonLoop (folder : FPath) (today : Date) :
    Nat → Date → List FPath → Option (List FPath)
  | 0, _, _ => none
  | fuel + 1, d, dirs =>
    if dateLE d today then
      allSkeletonLoop folder today fuel d.next (mkdirStep dirs (skeletonBucket folder d)).1
    else some dirs

/-- The dates visited by the `all` loop within `fuel` iterations. -/
def visitedDates (today : Date) : Nat → Date → List Date
  | 0, _ => []
  | fuel + 1, d => if dateLE d today then d :: visitedDates today fuel d.next else []

/-- The `month` command's skeleton loop (lines 176-185):
`next_month = start.month + 1; while start.month < next_month:
mkdir(<folder>/<Mon>/<m>-<d>); start += 1 day`, with explicit fuel;
`none` means the fuel ran out with the guard still true. -/
def monthSkeletonLoop (folder : FPath) (nextMonth : Nat) :
    Nat → Date → List FPath → Option (List FPath)
  | 0, _, _ => none
  | fuel + 1, d, dirs =>
    if d.month < nextMonth then
      monthSkeletonLoop folder nextMonth fuel d.next (mkdirStep dirs (monthBucket folder d)).1
    else some dirs

/-- `not any(subdir.iterdir())` (line 26): directory `d` has no entry,
i.e. no file lives in it and no other directory has it as parent. -/
def isEmptyDir (dirs : List FPath) (files : List FileEnt) (d : FPath) : Bool :=
  !(files.any (fun f => f.dir == d)) &&
    !(dirs.any (fun p => p.dropLast == d && !(p == d)))

/-- Lines 24-30 of `main.py`, the `clean_folders` loop over the
directories yielded by `folder.rglob('*')` (the `pending` list): a
yielded entry that is a directory and is empty at visit time is
removed.  Returns the surviving directory set and the list of deleted
directories in deletion order. -/
def cleanVisit (files : List FileEnt) :
    List FPath → List FPath → List FPath × List FPath
  | [], dirs => (dirs, [])
  | d :: rest, dirs =>
    if dirs.contains d && isEmptyDir dirs files d then
      let r := cleanVisit files rest (dirs.erase d)
      (r.1, d :: r.2)
    else cleanVisit files rest dirs

/-- The proper descendants of `folder` among `dirs`: the directories
yielded by `folder.rglob('*')` (the root itself is never yielded). -/
def underFolder (folder : FPath) (dirs : List FPath) : List FPath :=
  dirs.filter (fun p => folder.isPrefixOf p && Nat.blt folder.length p.length)

/-- An upper bound on the component length of the paths of `dirs`. -/
def maxDepth (dirs : List FPath) : Nat :=
  dirs.foldr (fun p m => max p.length m) 0

/-- The descendants of `folder` grouped by increasing component length:
depths `folder.length + 1` .. `folder.length + k`. -/
def blocksUpTo (folder : FPath) (dirs : List FPath) : Nat → List FPath
  | 0 => []
  | k + 1 =>
    blocksUpTo folder dirs k ++
      (underFolder folder dirs).filter (fun p => p.length == folder.length + (k + 1))

/-- The order in which `clean_folders` visits directories, modelled as a
parents-before-children linearization of the descendants of `folder`.
(pathlib's `rglob` is a pre-order walk: a directory is yielded as an
entry of its parent, before its own entries are yielded; the
characterization lemma below is proved for any order in which no
directory precedes its parent, so this particular linearization is
inessential.) -/
def visitOrder (folder : FPath) (dirs : List FPath) : List FPath :=
  blocksUpTo folder dirs (maxDepth dirs)

/-- `clean_folders(folder)` (lines 14-30): walk the descendants of
`folder` parents-first and remove each directory that is empty when
visited. -/
def clean_folders (folder : FPath) (dirs : List FPath) (files : List FileEnt) :
    List FPath × List FPath :=
  cleanVisit files (visitOrder folder dirs) dirs

/-- The `clean_folders` loop with a fallible `rmdir` (the oracle `env`
answers whether `subdir.rmdir()` (line 27) succeeds on a given path).
The source has no `try/except` around `rmdir`, so a failure raises out
of the loop: this is modelled by the `Except.error` short-circuit,
carrying the offending path. -/
def cleanVisitE (env : FPath → Bool) (files : List FileEnt) :
    List FPath → List FPath → Except FPath (List FPath × List FPath)
  | [], dirs => Except.ok (dirs, [])
  | d :: rest, dirs =>
    if dirs.contains d && isEmptyDir dirs files d then
      if env d then
        match cleanVisitE env files rest (dirs.erase d) with
        | Except.ok r => Except.ok (r.1, d :: r.2)
        | Except.error e => Except.error e
      else Except.error d
    else cleanVisitE env files rest dirs

/-- `clean_folders` under the fallible-`rmdir` environment `env`. -/
def clean_foldersE (env : FPath → Bool) (folder : FPath) (dirs : List FPath)
    (files : List FileEnt) : Except FPath (List FPath × List FPath) :=
  cleanVisitE env files (visitOrder folder dirs) dirs

example : monthAbbrev 3 = "Mar" := by decide
example : Date.next ⟨2024, 2, 28⟩ = ⟨2024, 2, 29⟩ := by decide
example : Date.next ⟨2023, 2, 28⟩ = ⟨2023, 3, 1⟩ := by decide
example : Date.next ⟨2023, 12, 31⟩ = ⟨2024, 1, 1⟩ := by decide
example :
    targetDirectory ["F"] ⟨0, ["F", "x"], "a", ⟨2024, 3, 15⟩, ⟨2024, 1, 1⟩⟩ =
      ["F", "Mar", "3-15"] := by decide

/-! ## Helper lemmas about the Skeleton Builder -/

/-- `mkdir` never removes a directory. -/
theorem mem_mkdirStep_of_mem {dirs : List FPath} {q : FPath} (p : FPath) (h : q ∈ dirs) :
    q ∈ (mkdirStep dirs p).1 := by
  unfold mkdirStep
  split
  · exact h
  · exact List.mem_append_left _ h

/-- After `mkdir(parents=True, exist_ok=True)` on a nonempty path, the
path is a directory. -/
theorem self_mem_mkdirStep {dirs : List FPath} {p : FPath} (hp : p ≠ []) :
    p ∈ (mkdirStep dirs p).1 := by
  unfold mkdirStep
  by_cases h : dirs.contains p = true
  · rw [if_pos h]
    exact List.elem_iff.mp h
  · rw [if_neg h]
    show p ∈ mkdirParents dirs p
    unfold mkdirParents pathInits
    refine List.mem_append_right _
      (List.mem_filter.mpr ⟨?_, by simp; exact fun hm => h (List.elem_iff.mpr hm)⟩)
    refine List.mem_map.mpr ⟨p.length - 1, List.mem_range.mpr ?_, ?_⟩
    · have : 0 < p.length := List.length_pos.mpr hp
      omega
    · have : 0 < p.length := List.length_pos.mpr hp
      rw [Nat.sub_add_cancel this, List.take_length]

/-- A skeleton run never removes a directory. -/
theorem buildSkeleton_mono (bucket : Date → FPath) :
    ∀ (dates : List Date) (dirs : List FPath) {q : FPath}, q ∈ dirs →
      q ∈ (buildSkeleton bucket dates dirs).1 := by
  intro dates
  induction dates with
  | nil => intro dirs q h; exact h
  | cons D rest ih =>
    intro dirs q h
    simpa [buildSkeleton] using ih _ (mem_mkdirStep_of_mem (bucket D) h)

/-- After a skeleton run, the bucket of every visited date exists. -/
theorem buildSkeleton_bucket_mem (bucket : Date → FPath) (hne : ∀ D, bucket D ≠ []) :
    ∀ (dates : List Date) (dirs : List FPath) (D : Date), D ∈ dates →
      bucket D ∈ (buildSkeleton bucket dates dirs).1 := by
  intro dates
  induction dates with
  | nil => intro dirs D h; exact absurd h (List.not_mem_nil D)
  | cons E rest ih =>
    intro dirs D h
    rcases List.mem_cons.mp h with rfl | hr
    · simpa [buildSkeleton] using
        buildSkeleton_mono bucket rest _ (self_mem_mkdirStep (hne D))
    · simpa [buildSkeleton] using ih _ D hr

/-- A skeleton run over dates whose buckets all already exist changes
nothing and logs no creation. -/
theorem buildSkeleton_noop (bucket : Date → FPath) :
    ∀ (dates : List Date) (dirs : List FPath), (∀ D ∈ dates, bucket D ∈ dirs) →
      buildSkeleton bucket dates dirs = (dirs, []) := by
  intro dates
  induction dates with
  | nil => intro dirs _; rfl
  | cons D rest ih =>
    intro dirs h
    have hst : mkdirStep dirs (bucket D) = (dirs, false) := by
      unfold mkdirStep
      rw [if_pos (List.elem_iff.mpr (h D (List.mem_cons_self D rest)))]
    simp [buildSkeleton, hst, ih dirs (fun E hE => h E (List.mem_cons_of_mem D hE))]

/-- Creation log soundness: every logged creation was of a directory
missing at the start of the run, and the log never repeats a path. -/
theorem buildSkeleton_created (bucket : Date → FPath) (hne : ∀ D, bucket D ≠ []) :
    ∀ (dates : List Date) (dirs : List FPath),
      (∀ q ∈ (buildSkeleton bucket dates dirs).2, q ∉ dirs) ∧
        ((buildSkeleton bucket dates dirs).2).Nodup := by
  intro dates
  induction dates with
  | nil => intro dirs; exact ⟨fun q h => absurd h (List.not_mem_nil q), List.nodup_nil⟩
  | cons D rest ih =>
    intro dirs
    cases hc : dirs.contains (bucket D) with
    | true =>
      have hst : mkdirStep dirs (bucket D) = (dirs, false) := by
        unfold mkdirStep; rw [if_pos hc]
      simpa [buildSkeleton, hst] using ih dirs
    | false =>
      have hst : mkdirStep dirs (bucket D) = (mkdirParents dirs (bucket D), true) := by
        unfold mkdirStep; rw [if_neg (by rw [hc]; exact Bool.false_ne_true)]
      have hunf2 : (buildSkeleton bucket (D :: rest) dirs).2 =
          bucket D :: (buildSkeleton bucket rest (mkdirParents dirs (bucket D))).2 := by
        simp [buildSkeleton, hst]
      have hsub : ∀ q ∈ dirs, q ∈ mkdirParents dirs (bucket D) :=
        fun q h => List.mem_append_left _ h
      have ihP := ih (mkdirParents dirs (bucket D))
      constructor
      · intro q hq
        rw [hunf2] at hq
        rcases List.mem_cons.mp hq with rfl | hq
        · intro hmem
          have hce := List.elem_iff.mpr hmem
          exact Bool.false_ne_true (hc ▸ hce)
        · exact fun hmem => ihP.1 q hq (hsub q hmem)
      · rw [hunf2]
        refine List.nodup_cons.mpr ⟨?_, ihP.2⟩
        intro hmem
        have hself : bucket D ∈ (mkdirStep dirs (bucket D)).1 := self_mem_mkdirStep (hne D)
        rw [hst] at hself
        exact ihP.1 _ hmem hself

/-- The `all` loop (lines 96-103) is the skeleton fold over the dates it
visits: `start`, `start + 1 day`, ... while `start <= today`. -/
theorem allSkeletonLoop_eq_buildSkeleton (folder : FPath) (today : Date) :
    ∀ (fuel : Nat) (d : Date) (dirs out : List FPath),
      allSkeletonLoop folder today fuel d dirs = some out →
      out = (buildSkeleton (skeletonBucket folder) (visitedDates today fuel d) dirs).1 := by
  intro fuel
  induction fuel with
  | zero => intro d dirs out h; exact absurd h (by simp [allSkeletonLoop])
  | succ n ih =>
    intro d dirs out h
    cases hle : dateLE d today with
    | true =>
      unfold allSkeletonLoop at h
      rw [if_pos hle] at h
      unfold visitedDates
      rw [if_pos hle]
      simpa [buildSkeleton] using ih _ _ out h
    | false =>
      unfold allSkeletonLoop at h
      rw [if_neg (by rw [hle]; exact Bool.false_ne_true)] at h
      unfold visitedDates
      rw [if_neg (by rw [hle]; exact Bool.false_ne_true)]
      simp only [buildSkeleton]
      exact (Option.some.inj h).symm

/-! ## Helper lemmas about the Empty Directory Pruner -/

/-- A list of paths of one common length is weakly sorted by length. -/
theorem pairwise_len_of_const {l : List FPath} {n : Nat} (h : ∀ p ∈ l, p.length = n) :
    l.Pairwise (fun a b => a.length ≤ b.length) := by
  induction l with
  | nil => exact List.Pairwise.nil
  | cons a t ih =>
    refine List.Pairwise.cons ?_ (ih (fun p hp => h p (List.mem_cons_of_mem a hp)))
    intro b hb
    rw [h a (List.mem_cons_self a t), h b (List.mem_cons_of_mem a hb)]

/-- Membership in `underFolder`. -/
theorem mem_underFolder {folder : FPath} {dirs : List FPath} {p : FPath} :
    p ∈ underFolder folder dirs ↔
      p ∈ dirs ∧ folder.isPrefixOf p = true ∧ folder.length < p.length := by
  unfold underFolder
  rw [List.mem_filter, Bool.and_eq_true, Nat.blt_eq]

/-- Every path of `dirs` is at most `maxDepth dirs` long. -/
theorem length_le_maxDepth : ∀ {dirs : List FPath} {p : FPath}, p ∈ dirs →
    p.length ≤ maxDepth dirs := by
  intro dirs
  induction dirs with
  | nil => intro p h; exact absurd h (List.not_mem_nil p)
  | cons q t ih =>
    intro p h
    rcases List.mem_cons.mp h with rfl | hr
    · exact le_max_left _ _
    · exact le_trans (ih hr) (le_max_right _ _)

/-- Membership in the depth-graded enumeration. -/
theorem mem_blocksUpTo (folder : FPath) (dirs : List FPath) :
    ∀ (k : Nat) (p : FPath), p ∈ blocksUpTo folder dirs k ↔
      (p ∈ underFolder folder dirs ∧ p.length ≤ folder.length + k) := by
  intro k
  induction k with
  | zero =>
    intro p
    constructor
    · intro h; exact absurd h (List.not_mem_nil p)
    · intro ⟨hm, hle⟩
      have := (mem_underFolder.mp hm).2.2
      omega
  | succ k ih =>
    intro p
    unfold blocksUpTo
    rw [List.mem_append, ih p, List.mem_filter]
    constructor
    · intro h
      rcases h with ⟨hm, hle⟩ | ⟨hm, hlen⟩
      · exact ⟨hm, by omega⟩
      · have := beq_iff_eq.mp hlen
        exact ⟨hm, by omega⟩
    · intro ⟨hm, hle⟩
      by_cases hk : p.length ≤ folder.length + k
      · exact Or.inl ⟨hm, hk⟩
      · exact Or.inr ⟨hm, beq_iff_eq.mpr (by omega)⟩

/-- The depth-graded enumeration is weakly sorted by length. -/
theorem pairwise_blocksUpTo (folder : FPath) (dirs : List FPath) :
    ∀ k : Nat, (blocksUpTo folder dirs k).Pairwise (fun a b => a.length ≤ b.length) := by
  intro k
  induction k with
  | zero => exact List.Pairwise.nil
  | succ k ih =>
    unfold blocksUpTo
    rw [List.pairwise_append]
    refine ⟨ih, pairwise_len_of_const (fun p hp => beq_iff_eq.mp (List.mem_filter.mp hp).2), ?_⟩
    intro a ha b hb
    have ha' := ((mem_blocksUpTo folder dirs k a).mp ha).2
    have hb' := beq_iff_eq.mp (List.mem_filter.mp hb).2
    omega

/-- The depth-graded enumeration has no duplicates when `dirs` has none. -/
theorem nodup_blocksUpTo (folder : FPath) {dirs : List FPath} (hnd : dirs.Nodup) :
    ∀ k : Nat, (blocksUpTo folder dirs k).Nodup := by
  intro k
  induction k with
  | zero => exact List.nodup_nil
  | succ k ih =>
    unfold blocksUpTo
    rw [List.nodup_append]
    refine ⟨ih, List.Nodup.filter _ (List.Nodup.filter _ hnd), ?_⟩
    rw [List.disjoint_left]
    intro a ha hb
    have ha' := ((mem_blocksUpTo folder dirs k a).mp ha).2
    have hb' := beq_iff_eq.mp (List.mem_filter.mp hb).2
    omega

/-- `visitOrder` enumerates exactly the proper descendants of the root. -/
theorem mem_visitOrder {folder : FPath} {dirs : List FPath} {p : FPath} :
    p ∈ visitOrder folder dirs ↔
      p ∈ dirs ∧ folder.isPrefixOf p = true ∧ folder.length < p.length := by
  unfold visitOrder
  rw [mem_blocksUpTo, ← mem_underFolder]
  constructor
  · exact fun h => h.1
  · intro h
    refine ⟨h, ?_⟩
    have := length_le_maxDepth (mem_underFolder.mp h).1
    omega

/-- A parent path is strictly shorter than its child. -/
theorem length_of_dropLast_eq {c d : FPath} (h : c.dropLast = d) (hne : c ≠ d) :
    c.length = d.length + 1 := by
  cases c with
  | nil => exact absurd (h.symm ▸ rfl) hne
  | cons x t =>
    have := List.length_dropLast (x :: t)
    rw [h] at this
    simp only [List.length_cons] at this ⊢
    omega

/-- In `visitOrder`, no directory is visited before its parent. -/
theorem visitOrder_parents_first (folder : FPath) {dirs : List FPath} :
    (visitOrder folder dirs).Pairwise (fun a b => a.dropLast ≠ b) := by
  refine List.Pairwise.imp_of_mem ?_ (pairwise_blocksUpTo folder dirs (maxDepth dirs))
  intro a b ha _ hle he
  have ha' : 0 < a.length := by
    have := ((mem_blocksUpTo folder dirs (maxDepth dirs) a).mp ha).1
    have := (mem_underFolder.mp this).2.2
    omega
  have : a.dropLast.length = a.length - 1 := List.length_dropLast a
  rw [he] at this
  omega

/-- While no child of `d` has been removed, emptiness of `d` relative to
the current directory set agrees with emptiness in the initial set. -/
theorem isEmptyDir_transfer {dirs0 cur : List FPath} (files : List FileEnt) (d : FPath)
    (hsub : ∀ c ∈ cur, c ∈ dirs0)
    (hchild : ∀ c ∈ dirs0, c.dropLast = d → c ≠ d → c ∈ cur) :
    isEmptyDir cur files d = isEmptyDir dirs0 files d := by
  unfold isEmptyDir
  congr 1
  rw [Bool.eq_iff_iff]
  simp only [Bool.not_eq_eq_eq_not, Bool.not_true, Bool.not_eq_true]
  constructor
  · intro h
    rw [← Bool.not_eq_true] at h ⊢
    intro hany
    apply h
    obtain ⟨c, hc, hp⟩ := List.any_eq_true.mp hany
    have hp' := Bool.and_eq_true _ _ ▸ hp
    have hcd : c.dropLast = d := beq_iff_eq.mp hp'.1
    have hcne : c ≠ d := by
      intro e
      rw [e] at hp'
      simpa using hp'.2
    exact List.any_eq_true.mpr ⟨c, hchild c hc hcd hcne, hp⟩
  · intro h
    rw [← Bool.not_eq_true] at h ⊢
    intro hany
    apply h
    obtain ⟨c, hc, hp⟩ := List.any_eq_true.mp hany
    exact List.any_eq_true.mpr ⟨c, hsub c hc, hp⟩

/-- Unfolding equation of the pruning loop on a visited entry. -/
theorem cleanVisit_cons (files : List FileEnt) (d : FPath) (rest dirs : List FPath) :
    cleanVisit files (d :: rest) dirs =
      if dirs.contains d && isEmptyDir dirs files d then
        ((cleanVisit files rest (dirs.erase d)).1,
          d :: (cleanVisit files rest (dirs.erase d)).2)
      else cleanVisit files rest dirs := rfl

/-- Characterization of one pruning pass over a parents-first visit
order: the deleted directories are exactly the visited directories that
were already empty when the pass started.  (A directory whose children
are all deleted during the pass is visited before them, so it is seen
non-empty and kept.) -/
theorem cleanVisit_filter (files : List FileEnt) (dirs0 : List FPath) :
    ∀ (pending cur : List FPath),
      pending.Pairwise (fun a b => a.dropLast ≠ b) →
      pending.Nodup →
      (∀ d ∈ pending, d ∈ cur) →
      (∀ c ∈ cur, c ∈ dirs0) →
      (∀ d ∈ pending, ∀ c ∈ dirs0, c.dropLast = d → c ≠ d → c ∈ cur) →
      (cleanVisit files pending cur).2 =
        pending.filter (fun d => isEmptyDir dirs0 files d) := by
  intro pending
  induction pending with
  | nil => intro cur _ _ _ _ _; rfl
  | cons d rest ih =>
    intro cur hpar hnd hmem hsub hchild
    have hdcur : cur.contains d = true :=
      List.elem_iff.mpr (hmem d (List.mem_cons_self d rest))
    have htr : isEmptyDir cur files d = isEmptyDir dirs0 files d :=
      isEmptyDir_transfer files d hsub (hchild d (List.mem_cons_self d rest))
    have hndr : rest.Nodup := hnd.of_cons
    have hdnr : d ∉ rest := (List.nodup_cons.mp hnd).1
    have hparr : rest.Pairwise (fun a b => a.dropLast ≠ b) := hpar.of_cons
    cases hemp : isEmptyDir dirs0 files d with
    | true =>
      have hcond : (cur.contains d && isEmptyDir cur files d) = true := by
        rw [hdcur, htr, hemp]; rfl
      have hunf : (cleanVisit files (d :: rest) cur).2 =
          d :: (cleanVisit files rest (cur.erase d)).2 := by
        rw [cleanVisit_cons, if_pos hcond]
      rw [hunf, List.filter_cons_of_pos (by rw [hemp])]
      congr 1
      refine ih (cur.erase d) hparr hndr ?_ ?_ ?_
      · intro e he
        have hne : e ≠ d := fun h => hdnr (h ▸ he)
        exact (List.mem_erase_of_ne hne).mpr (hmem e (List.mem_cons_of_mem d he))
      · exact fun c hc => hsub c (List.mem_of_mem_erase hc)
      · intro e he c hc hcd hcne
        have hcne' : c ≠ d := by
          intro hcd2
          have := List.rel_of_pairwise_cons hpar he
          rw [← hcd2] at this
          exact this hcd
        exact (List.mem_erase_of_ne hcne').mpr
          (hchild e (List.mem_cons_of_mem d he) c hc hcd hcne)
    | false =>
      have hcond : (cur.contains d && isEmptyDir cur files d) = false := by
        rw [htr, hemp, Bool.and_false]
      have hunf : (cleanVisit files (d :: rest) cur).2 =
          (cleanVisit files rest cur).2 := by
        rw [cleanVisit_cons, if_neg (by rw [hcond]; exact Bool.false_ne_true)]
      rw [hunf, List.filter_cons_of_neg (by rw [hemp]; exact Bool.false_ne_true)]
      exact ih cur hparr hndr
        (fun e he => hmem e (List.mem_cons_of_mem d he)) hsub
        (fun e he => hchild e (List.mem_cons_of_mem d he))

/-! ## Helper lemmas about the File Relocator -/

/-- `moveStep` written as the three-way decision it performs: skip on an
existing destination, rename when the target directory exists and the
environment lets the rename through, otherwise catch the failure. -/
theorem moveStep_eq (folder : FPath) (dirs : List FPath) (env : Nat → Bool)
    (cur : List FileEnt) (f : FileEnt) :
    moveStep folder dirs env cur f =
      if destExists dirs cur (targetDirectory folder f) f.name then (cur, Outcome.conflict)
      else if dirs.contains (targetDirectory folder f) && env f.ino then
        (relocate cur f (targetDirectory folder f), Outcome.renamed)
      else (cur, Outcome.failed) := by
  unfold moveStep renameFile
  cases hde : destExists dirs cur (targetDirectory folder f) f.name
  · by_cases hc : targetDirectory folder f ∈ dirs <;>
      cases he : env f.ino <;> simp [hde, hc, he]
  · simp [hde]

/-- The relocator's bucket only reads the file's modification date:
updating the file's location does not change its bucket. -/
theorem targetDirectory_set_dir (folder : FPath) (f : FileEnt) (t : FPath) :
    targetDirectory folder { f with dir := t } = targetDirectory folder f := rfl

/-- A step on file `f` does not disturb a file with a different inode. -/
theorem moveStep_mem (folder : FPath) (dirs : List FPath) (env : Nat → Bool)
    (cur : List FileEnt) (f : FileEnt) {g : FileEnt} (hg : g ∈ cur)
    (hne : g.ino ≠ f.ino) : g ∈ (moveStep folder dirs env cur f).1 := by
  rw [moveStep_eq]
  cases hde : destExists dirs cur (targetDirectory folder f) f.name
  · cases hc : dirs.contains (targetDirectory folder f) && env f.ino
    · simpa [hde, hc] using hg
    · have := List.mem_map_of_mem
        (fun g => if g.ino == f.ino then { g with dir := targetDirectory folder f } else g) hg
      simp only [beq_iff_eq, if_neg hne] at this
      simpa [hde, hc, relocate] using this
  · simpa [hde] using hg

/-- A successful rename puts the moved record into the tree. -/
theorem relocate_self {cur : List FileEnt} {f : FileEnt} (t : FPath) (hf : f ∈ cur) :
    { f with dir := t } ∈ relocate cur f t := by
  unfold relocate
  refine List.mem_map.mpr ⟨f, hf, ?_⟩
  simp

/-- A step never changes the inode multiset of the tree. -/
theorem moveStep_ino_map (folder : FPath) (dirs : List FPath) (env : Nat → Bool)
    (cur : List FileEnt) (f : FileEnt) :
    (moveStep folder dirs env cur f).1.map FileEnt.ino = cur.map FileEnt.ino := by
  rw [moveStep_eq]
  cases hde : destExists dirs cur (targetDirectory folder f) f.name
  · cases hc : dirs.contains (targetDirectory folder f) && env f.ino
    · simp [hde, hc]
    · simp only [hde, hc, Bool.false_eq_true, if_false, if_true, relocate, List.map_map]
      apply List.map_congr_left
      intro g _
      by_cases h : g.ino = f.ino <;> simp [h]
  · simp [hde]

/-- The relocation log lists exactly the inodes of the scanned snapshot,
in scan order, whatever the environment does. -/
theorem move_files_go_log_inos (folder : FPath) (dirs : List FPath) (env : Nat → Bool) :
    ∀ (pending cur : List FileEnt),
      ((move_files_go folder dirs env pending cur).2).map Prod.fst =
        pending.map FileEnt.ino := by
  intro pending
  induction pending with
  | nil => intro cur; rfl
  | cons f rest ih => intro cur; simp [move_files_go, ih]

/-- A file whose inode is not in the remaining snapshot is untouched by
the rest of the run. -/
theorem move_files_go_frame (folder : FPath) (dirs : List FPath) (env : Nat → Bool) :
    ∀ (pending cur : List FileEnt) (g : FileEnt), g ∈ cur →
      (∀ f ∈ pending, f.ino ≠ g.ino) →
      g ∈ (move_files_go folder dirs env pending cur).1 := by
  intro pending
  induction pending with
  | nil => intro cur g hg _; exact hg
  | cons f rest ih =>
    intro cur g hg hni
    have h1 : g ∈ (moveStep folder dirs env cur f).1 :=
      moveStep_mem folder dirs env cur f hg (fun h => hni f (List.mem_cons_self f rest) h.symm)
    simpa [move_files_go] using ih _ g h1 (fun f' hf' => hni f' (List.mem_cons_of_mem f hf'))

/-- A relocation run never changes the inode multiset of the tree. -/
theorem move_files_go_ino_map (folder : FPath) (dirs : List FPath) (env : Nat → Bool) :
    ∀ (pending cur : List FileEnt),
      (move_files_go folder dirs env pending cur).1.map FileEnt.ino = cur.map FileEnt.ino := by
  intro pending
  induction pending with
  | nil => intro cur; rfl
  | cons f rest ih =>
    intro cur
    simpa [move_files_go, ih] using moveStep_ino_map folder dirs env cur f

/-- A scanned file that already sits in its computed bucket is never
renamed by the run: its own destination path exists (it is the file
itself), so the run skips it. -/
theorem move_files_go_not_renamed_of_atTarget (folder : FPath) (dirs : List FPath)
    (env : Nat → Bool) :
    ∀ (pending cur : List FileEnt) (f : FileEnt),
      (pending.map FileEnt.ino).Nodup → f ∈ pending → f ∈ cur →
      f.dir = targetDirectory folder f →
      (f.ino, Outcome.renamed) ∉ (move_files_go folder dirs env pending cur).2 := by
  intro pending
  induction pending with
  | nil => intro cur f _ hf; exact absurd hf (List.not_mem_nil f)
  | cons h rest ih =>
    intro cur f hnd hf hcur hft
    have hnd' : (rest.map FileEnt.ino).Nodup ∧ h.ino ∉ rest.map FileEnt.ino := by
      rw [List.map_cons, List.nodup_cons] at hnd
      exact ⟨hnd.2, hnd.1⟩
    rcases List.mem_cons.mp hf with rfl | hfr
    · have hde : destExists dirs cur (targetDirectory folder f) f.name = true := by
        unfold destExists
        refine Bool.or_eq_true_iff.mpr (Or.inl ?_)
        exact List.any_eq_true.mpr ⟨f, hcur, by simp [hft.symm]⟩
      have hstep : moveStep folder dirs env cur f = (cur, Outcome.conflict) := by
        rw [moveStep_eq, if_pos hde]
      intro hmem
      simp only [move_files_go, hstep, List.mem_cons] at hmem
      rcases hmem with heq | htail
      · exact Outcome.noConfusion (congrArg Prod.snd heq)
      · have : f.ino ∈ ((move_files_go folder dirs env rest cur).2).map Prod.fst :=
          List.mem_map_of_mem Prod.fst htail
        rw [move_files_go_log_inos] at this
        exact hnd'.2 this
    · have hne : f.ino ≠ h.ino := by
        intro e
        exact hnd'.2 (e ▸ List.mem_map_of_mem FileEnt.ino hfr)
      have hcur' : f ∈ (moveStep folder dirs env cur h).1 :=
        moveStep_mem folder dirs env cur h hcur hne
      intro hmem
      simp only [move_files_go, List.mem_cons] at hmem
      rcases hmem with heq | htail
      · exact hne (congrArg Prod.fst heq)
      · exact ih _ f hnd'.1 hfr hcur' hft htail

/-- A file that the run renamed sits, at the end of the run, in the
bucket computed from its (unchanged) modification date. -/
theorem move_files_go_renamed_atTarget (folder : FPath) (dirs : List FPath)
    (env : Nat → Bool) :
    ∀ (pending cur : List FileEnt) (i : Nat),
      (pending.map FileEnt.ino).Nodup → (∀ g ∈ pending, g ∈ cur) →
      (i, Outcome.renamed) ∈ (move_files_go folder dirs env pending cur).2 →
      ∃ g, g ∈ (move_files_go folder dirs env pending cur).1 ∧ g.ino = i ∧
        g.dir = targetDirectory folder g := by
  intro pending
  induction pending with
  | nil => intro cur i _ _ hmem; exact absurd hmem (List.not_mem_nil _)
  | cons h rest ih =>
    intro cur i hnd hsub hmem
    have hnd' : (rest.map FileEnt.ino).Nodup ∧ h.ino ∉ rest.map FileEnt.ino := by
      rw [List.map_cons, List.nodup_cons] at hnd
      exact ⟨hnd.2, hnd.1⟩
    have hsub' : ∀ g ∈ rest, g ∈ (moveStep folder dirs env cur h).1 := by
      intro g hg
      refine moveStep_mem folder dirs env cur h (hsub g (List.mem_cons_of_mem h hg)) ?_
      intro e
      exact hnd'.2 (e ▸ List.mem_map_of_mem FileEnt.ino hg)
    simp only [move_files_go, List.mem_cons] at hmem
    rcases hmem with heq | htail
    · have hi : i = h.ino := by simpa using congrArg Prod.fst heq
      have hout : (moveStep folder dirs env cur h).2 = Outcome.renamed := by
        simpa using (congrArg Prod.snd heq).symm
      rw [moveStep_eq] at hout
      cases hde : destExists dirs cur (targetDirectory folder h) h.name with
      | true => rw [if_pos hde] at hout; exact absurd hout (by simp)
      | false =>
        rw [if_neg (by rw [hde]; exact Bool.false_ne_true)] at hout
        cases hc : dirs.contains (targetDirectory folder h) && env h.ino with
        | false =>
          rw [if_neg (by rw [hc]; exact Bool.false_ne_true)] at hout
          exact absurd hout (by simp)
        | true =>
          have hstep : (moveStep folder dirs env cur h).1 =
              relocate cur h (targetDirectory folder h) := by
            rw [moveStep_eq, if_neg (by rw [hde]; exact Bool.false_ne_true), if_pos hc]
          refine ⟨{ h with dir := targetDirectory folder h }, ?_, by simpa using hi.symm, ?_⟩
          · have hmem1 : { h with dir := targetDirectory folder h } ∈
                (moveStep folder dirs env cur h).1 := by
              rw [hstep]
              exact relocate_self _ (hsub h (List.mem_cons_self h rest))
            have hfin := move_files_go_frame folder dirs env rest
              (moveStep folder dirs env cur h).1 _ hmem1
              (by
                intro f' hf' e
                apply hnd'.2
                have hm : f'.ino ∈ List.map FileEnt.ino rest :=
                  List.mem_map_of_mem FileEnt.ino hf'
                rwa [show f'.ino = h.ino from e] at hm)
            simpa [move_files_go] using hfin
          · rfl
    · obtain ⟨g, hg, hgi, hgt⟩ := ih _ i hnd'.1 hsub' htail
      exact ⟨g, by simpa [move_files_go] using hg, hgi, hgt⟩

/-! ## Helper lemmas about calendar arithmetic -/

/-- Adding a day never produces a month above 12. -/
theorem Date.next_month_le {d : Date} (h : d.month ≤ 12) : d.next.month ≤ 12 := by
  unfold Date.next
  by_cases h1 : d.day < daysInMonth d.year d.month
  · rw [if_pos h1]
    exact h
  · rw [if_neg h1]
    by_cases h2 : d.month < 12
    · rw [if_pos h2]
      exact h2
    · rw [if_neg h2]
      norm_num

/-- With `next_month = 13` (a December start), the guard
`start.month < next_month` of the `month` command's loop holds at every
iteration, so the loop never exits normally, whatever the fuel. -/
theorem monthSkeletonLoop_always_runs (folder : FPath) :
    ∀ (fuel : Nat) (d : Date) (dirs : List FPath), d.month ≤ 12 →
      monthSkeletonLoop folder 13 fuel d dirs = none := by
  intro fuel
  induction fuel with
  | zero => intro d dirs _; rfl
  | succ n ih =>
    intro d dirs h
    unfold monthSkeletonLoop
    rw [if_pos (by omega)]
    exact ih _ _ (Date.next_month_le h)

/-- Unfolding equation of the fallible-`rmdir` pruning loop. -/
theorem cleanVisitE_cons (env : FPath → Bool) (files : List FileEnt) (d : FPath)
    (rest dirs : List FPath) :
    cleanVisitE env files (d :: rest) dirs =
      if dirs.contains d && isEmptyDir dirs files d then
        if env d then
          match cleanVisitE env files rest (dirs.erase d) with
          | Except.ok r => Except.ok (r.1, d :: r.2)
          | Except.error e => Except.error e
        else Except.error d
      else cleanVisitE env files rest dirs := rfl

/-! ## The claims -/

/-- C1: the claim states that for the `all` command the relocator
computes the year-qualified bucket `<folder>/<Y>/<MonAbbrev3>/<M>-<D>`,
matching the skeleton.  The code contradicts it: `move_files` (line 57)
computes the year-less `<folder>/<MonAbbrev3>/<M>-<D>` for every
command, so for a file dated 2024-03-15 the mover's bucket differs from
the `all` skeleton's bucket (line 97) and, the year-less directory not
having been built, the rename fails and the file stays in place. -/
theorem all_mode_bucket_not_year_qualified :
    targetDirectory ["F"] ⟨1, ["F", "other"], "a", ⟨2024, 3, 15⟩, ⟨2024, 1, 1⟩⟩ ≠
        skeletonBucket ["F"] ⟨2024, 3, 15⟩ ∧
    (moveStep ["F"] [["F"], ["F", "2024"], ["F", "2024", "Mar"], ["F", "2024", "Mar", "3-15"]]
        (fun _ => true) [⟨1, ["F", "other"], "a", ⟨2024, 3, 15⟩, ⟨2024, 1, 1⟩⟩]
        ⟨1, ["F", "other"], "a", ⟨2024, 3, 15⟩, ⟨2024, 1, 1⟩⟩) =
      ([⟨1, ["F", "other"], "a", ⟨2024, 3, 15⟩, ⟨2024, 1, 1⟩⟩], Outcome.failed) := by
  decide

/-- C2: the claim states the `month` skeleton loop terminates after the
last day of the start month for every start date.  For a December start
the code's guard `start.month < next_month` compares against
`next_month = 12 + 1 = 13`, and a month never exceeds 12, so the guard
holds at every iteration and the loop never exits normally (in Python it
runs past Dec 31 into the following years until `datetime` overflows). -/
theorem month_loop_december_never_terminates :
    ∀ (folder : FPath) (fuel : Nat) (dirs : List FPath),
      monthSkeletonLoop folder (12 + 1) fuel ⟨2024, 12, 1⟩ dirs = none := by
  intro folder fuel dirs
  exact monthSkeletonLoop_always_runs folder fuel ⟨2024, 12, 1⟩ dirs (by norm_num)

/-- C3 counterexample: the claim states one pruning run also deletes
directories that become empty once their empty descendants are removed,
so that a second run deletes nothing.  On the tree `F/a/b` with `b`
empty, the first run deletes only `b` (`a` is visited before `b` and is
seen non-empty), and the second run then deletes `a`. -/
theorem pruner_second_run_deletes :
    (clean_folders ["F"] [["F"], ["F", "a"], ["F", "a", "b"]] []).2 = [["F", "a", "b"]] ∧
    (clean_folders ["F"]
        (clean_folders ["F"] [["F"], ["F", "a"], ["F", "a", "b"]] []).1 []).2 =
      [["F", "a"]] := by
  decide

/-- C3 (amended): a single `clean_folders` run deletes exactly the
directories under the folder that are empty at the start of the run;
`rglob` visits parents before their children, so a directory emptied
during the run is kept and only a later run deletes it. -/
theorem pruner_deletes_exactly_initially_empty :
    ∀ (folder : FPath) (dirs : List FPath) (files : List FileEnt), dirs.Nodup →
      ∀ d : FPath,
        d ∈ (clean_folders folder dirs files).2 ↔
          (d ∈ dirs ∧ folder.isPrefixOf d = true ∧ folder.length < d.length ∧
            isEmptyDir dirs files d = true) := by
  intro folder dirs files hnd d
  unfold clean_folders
  rw [cleanVisit_filter files dirs (visitOrder folder dirs) dirs
    (visitOrder_parents_first folder) (nodup_blocksUpTo folder hnd (maxDepth dirs))
    (fun e he => (mem_visitOrder.mp he).1) (fun c hc => hc)
    (fun e _ c hc _ _ => hc)]
  rw [List.mem_filter, mem_visitOrder]
  exact ⟨fun ⟨⟨h1, h2, h3⟩, h4⟩ => ⟨h1, h2, h3, h4⟩,
    fun ⟨h1, h2, h3, h4⟩ => ⟨⟨h1, h2, h3⟩, h4⟩⟩

/-- C3 witness: on the concrete tree `F/a/b`, the amended theorem
applies and certifies the deletion of the initially empty `F/a/b`. -/
theorem pruner_deletes_exactly_initially_empty_witness :
    ([["F"], ["F", "a"], ["F", "a", "b"]] : List FPath).Nodup ∧
    ["F", "a", "b"] ∈ (clean_folders ["F"] [["F"], ["F", "a"], ["F", "a", "b"]] []).2 :=
  ⟨by decide,
    (pruner_deletes_exactly_initially_empty ["F"] [["F"], ["F", "a"], ["F", "a", "b"]] []
      (by decide) ["F", "a", "b"]).mpr ⟨by decide, by decide, by decide, by decide⟩⟩

/-- C4: if the computed destination path already exists when a file is
processed, the relocator skips the move: the tree is left completely
unchanged (source file in place, destination file untouched, nothing
deleted), the conflict is logged, and the remaining files are processed
on the unchanged tree. -/
theorem relocator_skips_existing_destination :
    ∀ (folder : FPath) (dirs : List FPath) (env : Nat → Bool) (cur : List FileEnt)
      (f : FileEnt) (rest : List FileEnt),
      destExists dirs cur (targetDirectory folder f) f.name = true →
      moveStep folder dirs env cur f = (cur, Outcome.conflict) ∧
      move_files_go folder dirs env (f :: rest) cur =
        ((move_files_go folder dirs env rest cur).1,
          (f.ino, Outcome.conflict) :: (move_files_go folder dirs env rest cur).2) := by
  intro folder dirs env cur f rest h
  have hstep : moveStep folder dirs env cur f = (cur, Outcome.conflict) := by
    rw [moveStep_eq, if_pos h]
  exact ⟨hstep, by simp [move_files_go, hstep]⟩

/-- C4 witness: a concrete conflicting pair of files named "a". -/
theorem relocator_skips_existing_destination_witness :
    destExists [["F"], ["F", "Mar", "3-15"]]
        [⟨9, ["F", "Mar", "3-15"], "a", ⟨2024, 7, 1⟩, ⟨2024, 1, 1⟩⟩,
          ⟨8, ["F", "z"], "a", ⟨2024, 3, 15⟩, ⟨2024, 1, 1⟩⟩]
        (targetDirectory ["F"] ⟨8, ["F", "z"], "a", ⟨2024, 3, 15⟩, ⟨2024, 1, 1⟩⟩)
        "a" = true ∧
    moveStep ["F"] [["F"], ["F", "Mar", "3-15"]] (fun _ => true)
        [⟨9, ["F", "Mar", "3-15"], "a", ⟨2024, 7, 1⟩, ⟨2024, 1, 1⟩⟩,
          ⟨8, ["F", "z"], "a", ⟨2024, 3, 15⟩, ⟨2024, 1, 1⟩⟩]
        ⟨8, ["F", "z"], "a", ⟨2024, 3, 15⟩, ⟨2024, 1, 1⟩⟩ =
      ([⟨9, ["F", "Mar", "3-15"], "a", ⟨2024, 7, 1⟩, ⟨2024, 1, 1⟩⟩,
         ⟨8, ["F", "z"], "a", ⟨2024, 3, 15⟩, ⟨2024, 1, 1⟩⟩], Outcome.conflict) :=
  ⟨by decide,
    (relocator_skips_existing_destination ["F"] [["F"], ["F", "Mar", "3-15"]] (fun _ => true)
      [⟨9, ["F", "Mar", "3-15"], "a", ⟨2024, 7, 1⟩, ⟨2024, 1, 1⟩⟩,
        ⟨8, ["F", "z"], "a", ⟨2024, 3, 15⟩, ⟨2024, 1, 1⟩⟩]
      ⟨8, ["F", "z"], "a", ⟨2024, 3, 15⟩, ⟨2024, 1, 1⟩⟩ [] (by decide)).1⟩

/-- C5: per-file failure isolation.  Whatever the environment makes the
renames do (the oracle `env` may fail any subset of them), the
relocation log records exactly one outcome per scanned file, in scan
order: no failure aborts the batch or prevents the remaining files from
being processed. -/
theorem relocator_processes_every_file :
    ∀ (folder : FPath) (dirs : List FPath) (env : Nat → Bool) (files : List FileEnt),
      ((move_files folder dirs env files).2).map Prod.fst = files.map FileEnt.ino := by
  intro folder dirs env files
  exact move_files_go_log_inos folder dirs env files files

/-- C6 counterexample: the claim states a failed `rmdir` is logged and
the pruner continues.  In the code `subdir.rmdir()` (line 27) has no
`try/except`: on the tree with empty `F/a` and `F/b`, an environment in
which removing `F/a` fails makes the whole pruning pass abort with that
error, and `F/b` is never deleted. -/
theorem pruner_rmdir_failure_aborts :
    clean_foldersE (fun p => !(p == (["F", "a"] : FPath))) ["F"]
      [["F"], ["F", "a"], ["F", "b"]] [] = Except.error ["F", "a"] := by
  rfl

/-- C6 (amended): when `rmdir` fails on a directory the pruner is about
to delete, the exception propagates out of `clean_folders` immediately
(the loop has no handler): the pass returns that error and no further
directory is visited or deleted. -/
theorem pruner_rmdir_failure_propagates :
    ∀ (env : FPath → Bool) (files : List FileEnt) (d : FPath) (rest dirs : List FPath),
      d ∈ dirs → isEmptyDir dirs files d = true → env d = false →
      cleanVisitE env files (d :: rest) dirs = Except.error d := by
  intro env files d rest dirs hd he hf
  have hcond : (dirs.contains d && isEmptyDir dirs files d) = true := by
    have h1 : dirs.contains d = true := List.elem_iff.mpr hd
    rw [h1, he]
    rfl
  rw [cleanVisitE_cons, if_pos hcond, if_neg (by rw [hf]; exact Bool.false_ne_true)]

/-- C6 witness: the concrete failing `rmdir` on `F/a`. -/
theorem pruner_rmdir_failure_propagates_witness :
    (["F", "a"] : FPath) ∈ [["F"], ["F", "a"], ["F", "b"]] ∧
    isEmptyDir [["F"], ["F", "a"], ["F", "b"]] [] ["F", "a"] = true ∧
    (fun p => !(p == (["F", "a"] : FPath))) ["F", "a"] = false ∧
    cleanVisitE (fun p => !(p == (["F", "a"] : FPath))) [] [["F", "a"], ["F", "b"]]
      [["F"], ["F", "a"], ["F", "b"]] = Except.error ["F", "a"] :=
  ⟨by decide, by decide, by decide,
    pruner_rmdir_failure_propagates (fun p => !(p == (["F", "a"] : FPath))) []
      ["F", "a"] [["F", "b"]] [["F"], ["F", "a"], ["F", "b"]]
      (by decide) (by decide) (by decide)⟩

/-- C7 counterexample: the claim states the second relocation run
performs no moves.  With two files both named "x", the first run skips
`f1` (its destination is occupied by `f2`) and then moves `f2` away; the
second run finds `f1`'s destination free and renames it: the second run
does perform a move. -/
theorem relocator_second_run_can_move :
    (1, Outcome.renamed) ∈
      (move_files ["F"]
        [["F"], ["F", "other"], ["F", "Mar"], ["F", "Mar", "3-15"],
          ["F", "Apr"], ["F", "Apr", "4-10"]] (fun _ => true)
        (move_files ["F"]
          [["F"], ["F", "other"], ["F", "Mar"], ["F", "Mar", "3-15"],
            ["F", "Apr"], ["F", "Apr", "4-10"]] (fun _ => true)
          [⟨1, ["F", "other"], "x", ⟨2024, 3, 15⟩, ⟨2024, 1, 1⟩⟩,
            ⟨2, ["F", "Mar", "3-15"], "x", ⟨2024, 4, 10⟩, ⟨2024, 1, 1⟩⟩]).1).2 := by
  decide

/-- C7 (amended): across two successive relocation runs each file is
renamed at most once: a file the first run renamed sits in its computed
bucket, whose destination path (the file itself) exists, so the second
run skips it.  (The second run is, however, not a no-op in general: it
can move files whose first-run conflict has cleared, and it re-fails
moves that failed in the first run.) -/
theorem relocator_renames_each_file_at_most_once :
    ∀ (folder : FPath) (dirs : List FPath) (env1 env2 : Nat → Bool)
      (files : List FileEnt) (i : Nat),
      (files.map FileEnt.ino).Nodup →
      (i, Outcome.renamed) ∈ (move_files folder dirs env1 files).2 →
      (i, Outcome.renamed) ∉
        (move_files folder dirs env2 (move_files folder dirs env1 files).1).2 := by
  intro folder dirs env1 env2 files i hnd h1
  obtain ⟨g, hg, hgi, hgt⟩ :=
    move_files_go_renamed_atTarget folder dirs env1 files files i hnd (fun _ h => h) h1
  have hnd2 : ((move_files folder dirs env1 files).1.map FileEnt.ino).Nodup := by
    unfold move_files
    rw [move_files_go_ino_map]
    exact hnd
  have hnot := move_files_go_not_renamed_of_atTarget folder dirs env2
    (move_files folder dirs env1 files).1 (move_files folder dirs env1 files).1 g
    hnd2 hg hg hgt
  exact hgi ▸ hnot

/-- C7 witness: a single file renamed by the first run and skipped by
the second. -/
theorem relocator_renames_each_file_at_most_once_witness :
    (([⟨5, ["F", "x"], "p", ⟨2024, 3, 15⟩, ⟨2024, 1, 1⟩⟩] : List FileEnt).map
        FileEnt.ino).Nodup ∧
    (5, Outcome.renamed) ∈
      (move_files ["F"] [["F"], ["F", "x"], ["F", "Mar"], ["F", "Mar", "3-15"]]
        (fun _ => true) [⟨5, ["F", "x"], "p", ⟨2024, 3, 15⟩, ⟨2024, 1, 1⟩⟩]).2 ∧
    (5, Outcome.renamed) ∉
      (move_files ["F"] [["F"], ["F", "x"], ["F", "Mar"], ["F", "Mar", "3-15"]]
        (fun _ => true)
        (move_files ["F"] [["F"], ["F", "x"], ["F", "Mar"], ["F", "Mar", "3-15"]]
          (fun _ => true) [⟨5, ["F", "x"], "p", ⟨2024, 3, 15⟩, ⟨2024, 1, 1⟩⟩]).1).2 :=
  ⟨by decide, by decide,
    relocator_renames_each_file_at_most_once ["F"]
      [["F"], ["F", "x"], ["F", "Mar"], ["F", "Mar", "3-15"]] (fun _ => true) (fun _ => true)
      [⟨5, ["F", "x"], "p", ⟨2024, 3, 15⟩, ⟨2024, 1, 1⟩⟩] 5 (by decide) (by decide)⟩

/-- C8: skeleton-builder idempotence.  For every visited date the
year-qualified bucket directory exists after the run, a run never logs
the creation of the same directory twice, and a second run over the same
dates changes nothing and creates nothing. -/
theorem skeleton_builder_idempotent :
    ∀ (folder : FPath) (dates : List Date) (dirs : List FPath),
      (∀ D ∈ dates, skeletonBucket folder D ∈
        (buildSkeleton (skeletonBucket folder) dates dirs).1) ∧
      ((buildSkeleton (skeletonBucket folder) dates dirs).2).Nodup ∧
      buildSkeleton (skeletonBucket folder) dates
          ((buildSkeleton (skeletonBucket folder) dates dirs).1) =
        ((buildSkeleton (skeletonBucket folder) dates dirs).1, []) := by
  intro folder dates dirs
  have hne : ∀ D : Date, skeletonBucket folder D ≠ [] := by
    intro D
    simp [skeletonBucket]
  refine ⟨fun D hD => buildSkeleton_bucket_mem _ hne dates dirs D hD,
    (buildSkeleton_created _ hne dates dirs).2, ?_⟩
  exact buildSkeleton_noop _ dates _
    (fun D hD => buildSkeleton_bucket_mem _ hne dates dirs D hD)

/-- C8 witness: the one-day skeleton for 2024-03-15 under `F`. -/
theorem skeleton_builder_idempotent_witness :
    skeletonBucket ["F"] ⟨2024, 3, 15⟩ ∈
      (buildSkeleton (skeletonBucket ["F"]) [⟨2024, 3, 15⟩] [["F"]]).1 ∧
    buildSkeleton (skeletonBucket ["F"]) [⟨2024, 3, 15⟩]
        ((buildSkeleton (skeletonBucket ["F"]) [⟨2024, 3, 15⟩] [["F"]]).1) =
      ((buildSkeleton (skeletonBucket ["F"]) [⟨2024, 3, 15⟩] [["F"]]).1, []) :=
  ⟨(skeleton_builder_idempotent ["F"] [⟨2024, 3, 15⟩] [["F"]]).1 ⟨2024, 3, 15⟩
      (List.mem_singleton.mpr rfl),
    (skeleton_builder_idempotent ["F"] [⟨2024, 3, 15⟩] [["F"]]).2.2⟩

/-- C9: the computed bucket is a function of the modification timestamp
alone: two files with the same modification date get the same target
directory, whatever their creation dates (which line 48 only logs),
names, inodes or locations. -/
theorem bucket_depends_only_on_mtime :
    ∀ (folder : FPath) (f1 f2 : FileEnt), f1.mtime = f2.mtime →
      targetDirectory folder f1 = targetDirectory folder f2 := by
  intro folder f1 f2 h
  unfold targetDirectory
  rw [h]

/-- C9 witness: equal mtimes, different ctimes, same bucket. -/
theorem bucket_depends_only_on_mtime_witness :
    (⟨1, ["A"], "x", ⟨2024, 3, 15⟩, ⟨2020, 1, 1⟩⟩ : FileEnt).mtime =
        (⟨2, ["B"], "y", ⟨2024, 3, 15⟩, ⟨2023, 6, 6⟩⟩ : FileEnt).mtime ∧
    (⟨1, ["A"], "x", ⟨2024, 3, 15⟩, ⟨2020, 1, 1⟩⟩ : FileEnt).ctime ≠
        (⟨2, ["B"], "y", ⟨2024, 3, 15⟩, ⟨2023, 6, 6⟩⟩ : FileEnt).ctime ∧
    targetDirectory ["F"] ⟨1, ["A"], "x", ⟨2024, 3, 15⟩, ⟨2020, 1, 1⟩⟩ =
      targetDirectory ["F"] ⟨2, ["B"], "y", ⟨2024, 3, 15⟩, ⟨2023, 6, 6⟩⟩ :=
  ⟨rfl, by decide,
    bucket_depends_only_on_mtime ["F"] ⟨1, ["A"], "x", ⟨2024, 3, 15⟩, ⟨2020, 1, 1⟩⟩
      ⟨2, ["B"], "y", ⟨2024, 3, 15⟩, ⟨2023, 6, 6⟩⟩ rfl⟩

/-- C10: the relocator never creates directories (only the skeleton
loops call `mkdir`).  In a well-formed tree (files live in existing
directories, every non-root directory's parent exists), a file whose
computed bucket directory does not exist is not moved: the rename
raises, the `except` catches it, the outcome is logged as a failure,
and the tree — the file's location and name included — is unchanged. -/
theorem relocator_missing_bucket_fails_in_place :
    ∀ (folder : FPath) (dirs : List FPath) (env : Nat → Bool) (cur : List FileEnt)
      (f : FileEnt),
      targetDirectory folder f ∉ dirs →
      (∀ g ∈ cur, g.dir ∈ dirs) →
      (∀ p ∈ dirs, 2 ≤ p.length → p.dropLast ∈ dirs) →
      moveStep folder dirs env cur f = (cur, Outcome.failed) := by
  intro folder dirs env cur f h1 h2 h3
  have hc : dirs.contains (targetDirectory folder f) = false := by
    cases hcc : dirs.contains (targetDirectory folder f) with
    | false => rfl
    | true => exact absurd (List.elem_iff.mp hcc) h1
  have hde : destExists dirs cur (targetDirectory folder f) f.name = false := by
    unfold destExists
    rw [Bool.or_eq_false_iff]
    constructor
    · rw [List.any_eq_false]
      intro g hg
      intro hp
      have hgd : g.dir = targetDirectory folder f :=
        beq_iff_eq.mp ((Bool.and_eq_true _ _ ▸ hp).1)
      exact h1 (hgd ▸ h2 g hg)
    · cases hcc : dirs.contains (targetDirectory folder f ++ [f.name]) with
      | false => rfl
      | true =>
        have hmem := List.elem_iff.mp hcc
        have hlen : 2 ≤ (targetDirectory folder f ++ [f.name]).length := by
          simp [targetDirectory]
        have := h3 _ hmem hlen
        rw [List.dropLast_concat] at this
        exact absurd this h1
  rw [moveStep_eq, if_neg (by rw [hde]; exact Bool.false_ne_true),
    if_neg (by rw [hc, Bool.false_and]; exact Bool.false_ne_true)]

/-- C10 witness: a file under `F` dated 2024-03-15 with no `F/Mar/3-15`
directory anywhere: the move fails and the tree is unchanged. -/
theorem relocator_missing_bucket_fails_in_place_witness :
    targetDirectory ["F"] ⟨3, ["F"], "a", ⟨2024, 3, 15⟩, ⟨2024, 1, 1⟩⟩ ∉ [(["F"] : FPath)] ∧
    (∀ g ∈ [(⟨3, ["F"], "a", ⟨2024, 3, 15⟩, ⟨2024, 1, 1⟩⟩ : FileEnt)], g.dir ∈ [(["F"] : FPath)]) ∧
    (∀ p ∈ [(["F"] : FPath)], 2 ≤ p.length → p.dropLast ∈ [(["F"] : FPath)]) ∧
    moveStep ["F"] [["F"]] (fun _ => true)
        [⟨3, ["F"], "a", ⟨2024, 3, 15⟩, ⟨2024, 1, 1⟩⟩]
        ⟨3, ["F"], "a", ⟨2024, 3, 15⟩, ⟨2024, 1, 1⟩⟩ =
      ([⟨3, ["F"], "a", ⟨2024, 3, 15⟩, ⟨2024, 1, 1⟩⟩], Outcome.failed) :=
  ⟨by decide, by decide, by decide,
    relocator_missing_bucket_fails_in_place ["F"] [["F"]] (fun _ => true)
      [⟨3, ["F"], "a", ⟨2024, 3, 15⟩, ⟨2024, 1, 1⟩⟩]
      ⟨3, ["F"], "a", ⟨2024, 3, 15⟩, ⟨2024, 1, 1⟩⟩
      (by decide) (by decide) (by decide)⟩
